import Mathlib

/-!
Formal model of `src/dga-detection/training-tuning-inference/dga_detector.py`
(class `DGADetector`): domain truncation, string vectorization, tensor
padding, batch inference (`predict`), the training loop (`train_model`),
evaluation (`evaluate_model`) and checkpoint save/load.

Modelling conventions.  Tensor entries are rationals (the float arithmetic of
the original is idealized as exact arithmetic); the sigmoid applied to the
final logits is real-valued.  The collaborators that the module treats as
given (the `RNNClassifier` forward pass, the loss criterion, the optimizer
step, the dataloader) are parameters of the corresponding definitions.
Fallible steps (the cupy broadcast in `_create_variables`, the final division
of `evaluate_model`) are modelled with `Option`/`Except`.
-/

namespace DGA

/-- Character codes of a string: each character becomes its code point
(ASCII code for the ASCII domains this detector handles). -/
def charCodes (s : String) : List Nat := s.data.map Char.toNat

/-- `df['domain'].str.slice_replace(truncate, repl='')` (dga_detector.py
line 173): everything from position `truncate` on is replaced by the empty
string, i.e. the first `truncate` characters are kept. -/
def truncateDomain (truncate : Nat) (s : String) : String := ⟨s.data.take truncate⟩

/-- The width of the vectorized frame: the largest domain length in the
batch. -/
def maxLen (domains : List String) : Nat := (domains.map String.length).foldr max 0

/-- One row of the vectorized dataframe produced by `utils.str2ascii`: the
original positional index of the domain, the character-code columns
(zero-filled up to the batch width) and the `len` column. -/
structure Row where
  idx : Nat
  codes : List Nat
  len : Nat

/-- Modelled from the spec: `utils.str2ascii` (the string-to-ASCII
vectorization utility, which is not under `src/`) turns each domain into its
character-code sequence together with its length, zero-fills every row to the
batch-wide maximum width, and may reorder the rows internally; the spec only
promises that each row keeps the index of the domain it came from.  The
internal processing order is the parameter `σ`: row `k` of the result holds
the domain at original position `σ k`. -/
def str2ascii (domains : List String) (σ : List Nat) : List Row :=
  σ.map fun i =>
    let d := domains.getD i ("")
    { idx := i
      codes := charCodes d ++ List.replicate (maxLen domains - d.length) 0
      len := d.length }

/-- Zero-fill one code row up to the padding width (one row of
`input = cp.zeros((n, pad_max_len)); input[:n, :w] = seq_cp`). -/
def padTo (pad : Nat) (r : List Nat) : List Nat := r ++ List.replicate (pad - r.length) 0

/-- `DGADetector._create_variables` (lines 202-223): the frame (code columns
paired with the `len` column) becomes the zero-padded index tensor of width
`pad_max_len` plus the length tensor.  The cupy assignment
`input[:n, :w] = seq_cp` raises a broadcast error when the frame is wider
than `pad_max_len`; this failure is modelled as `none`. -/
def createVariables (df : List (List Nat × Nat)) (pad : Nat) :
    Option (List (List Nat) × List Nat) :=
  if df.all fun r => r.1.length ≤ pad then
    some (df.map fun r => padTo pad r.1, df.map fun r => r.2)
  else none

/-- `df.sort_index()` (line 191) on a frame whose index column is a
permutation of `0..n-1` — which is the situation in `predict`: the frame
carries the default `RangeIndex` of the input series, permuted by the
vectorization step.  Row `j` of the result is the row carrying index `j`. -/
def sortIndex {α : Type} (pairs : List (Nat × α)) : List (Nat × α) :=
  (List.range pairs.length).filterMap fun j => pairs.find? fun p => p.1 == j

/-- Common body of `DGADetector.predict` (lines 169-192): truncate the
domains, vectorize them (in the internal order `σ`), build the padded input
tensor and the length tensor, run the forward pass, post-process each output
row with `f`, re-attach the original indices and sort by them. -/
def predictWith {α : Type} (f : List ℚ → α)
    (model : List (List Nat) → List Nat → List (List ℚ))
    (domains : List String) (truncate pad : Nat) (σ : List Nat) : Option (List α) :=
  let rows := str2ascii (domains.map (truncateDomain truncate)) σ
  (createVariables (rows.map fun r => (r.codes, r.len)) pad).map fun v =>
    (sortIndex ((rows.map Row.idx).zip ((model v.1 v.2).map f))).map fun p => p.2

/-- `torch.sigmoid`, applied to a (rational-modelled) logit. -/
noncomputable def sigmoid (x : ℚ) : ℝ := 1 / (1 + Real.exp (-(x : ℝ)))

/-- Maximum entry of a row (helper for the arg-max of `max(1, keepdim=True)`). -/
def listMax : List ℚ → ℚ
  | [] => 0
  | x :: xs => xs.foldl max x

/-- `output.data.max(1, keepdim=True)[1]` for one row: the index of the first
maximal entry. -/
def argmaxIdx : List ℚ → Nat
  | [] => 0
  | [_] => 0
  | x :: y :: xs => if listMax (y :: xs) ≤ x then 0 else argmaxIdx (y :: xs) + 1

/-- `predict(..., probability=True)` (lines 182-186): sigmoid of column `0`
of the network output (`model_result[:, 0]`), in the input order. -/
noncomputable def predictProb (model : List (List Nat) → List Nat → List (List ℚ))
    (domains : List String) (truncate pad : Nat) (σ : List Nat) : Option (List ℝ) :=
  predictWith (fun r => sigmoid (r.headD 0)) model domains truncate pad σ

/-- `predict(..., probability=False)` (lines 187-190): arg-max class index
per domain, in the input order. -/
def predictLabels (model : List (List Nat) → List Nat → List (List ℚ))
    (domains : List String) (truncate pad : Nat) (σ : List Nat) : Option (List Nat) :=
  predictWith argmaxIdx model domains truncate pad σ

/-- The per-domain network output that `predict` realizes when the forward
pass computes its rows independently (`g` is the per-row function of the
network): the row of logits obtained from the truncated, vectorized and
zero-padded domain together with its true length. -/
def perDomainLogits (g : List Nat → Nat → List ℚ) (truncate pad : Nat) (s : String) :
    List ℚ :=
  g (padTo pad (charCodes (truncateDomain truncate s))) (truncateDomain truncate s).length

/-- One row of a training/evaluation chunk as produced by the (external)
`DGADataset`/`DataLoader` pair: the domain string and its label (the `type`
column) plus the vectorized code columns and the `len` column. -/
structure Record where
  domain : String
  type : Nat
  codes : List Nat
  len : Nat

/-- `pred.eq(target.data.view_as(pred)).cpu().sum()`: how many arg-max
predictions agree with the labels.  (`view_as` makes the two columns
congruent; the comparison is elementwise.) -/
def countCorrect (pred target : List Nat) : Nat :=
  (List.zipWith (fun p t => p == t) pred target).count true

/-- The body of `evaluate_model`'s loop (lines 253-259) for one chunk:
build the tensors, run the forward pass, compare arg-max predictions with
the labels, and add the number of matches to the running count. -/
def evalBatch (model : List (List Nat) → List Nat → List (List ℚ)) (pad : Nat)
    (correct : Nat) (chunk : List Record) : Option Nat :=
  (createVariables (chunk.map fun r => (r.codes, r.len)) pad).map fun v =>
    correct + countCorrect ((model v.1 v.2).map argmaxIdx) (chunk.map Record.type)

/-- Errors `evaluate_model`/`train_model` can raise: the cupy broadcast
error from `_create_variables`, and Python's `ZeroDivisionError` from
`float(correct) / dataloader.dataset_len`. -/
inductive EvalError where
  | broadcastError
  | divisionByZero
deriving DecidableEq

/-- `DGADetector.evaluate_model` (lines 225-262): fold the batch loop over
the chunks, then divide the correct-prediction count by the dataloader's
`dataset_len` (raising on a zero denominator, as Python division does). -/
def evaluateModel (model : List (List Nat) → List Nat → List (List ℚ))
    (chunks : List (List Record)) (dlen pad : Nat) : Except EvalError ℚ :=
  match chunks.foldlM (evalBatch model pad) 0 with
  | none => Except.error EvalError.broadcastError
  | some correct =>
    if dlen = 0 then Except.error EvalError.divisionByZero
    else Except.ok ((correct : ℚ) / (dlen : ℚ))

/-- The external collaborators of the training loop, as functions: the
network forward pass (depending on the current weights), the loss criterion,
and the optimizer update performed by `zero_grad`/`backward`/`step` (whose
result is determined by the current weights and the batch). -/
structure TrainCfg where
  forward : List ℚ → List (List Nat) → List Nat → List (List ℚ)
  criterion : List (List ℚ) → List Nat → ℚ
  step : List ℚ → List (List Nat) → List Nat → List Nat → List ℚ

/-- The body of `train_model`'s inner loop (lines 124-140) for one chunk,
acting on the state (weights, total_loss, i): a chunk with rows is turned
into tensors, run forward, its loss accumulated and the optimizer stepped;
a chunk with zero rows is passed over (`if domains_len > 0`). -/
def trainBatch (cfg : TrainCfg) (pad : Nat) (st : List ℚ × ℚ × Nat)
    (chunk : List Record) : Option (List ℚ × ℚ × Nat) :=
  if 0 < chunk.length then
    (createVariables (chunk.map fun r => (r.codes, r.len)) pad).map fun v =>
      let types := chunk.map Record.type
      let loss := cfg.criterion (cfg.forward st.1 v.1 v.2) types
      (cfg.step st.1 v.1 v.2 types, st.2.1 + loss, st.2.2 + 1)
  else some st

/-- One epoch of `train_model`'s batch loop, starting from weights `w`. -/
def trainEpoch (cfg : TrainCfg) (pad : Nat) (w : List ℚ)
    (chunks : List (List Record)) : Option (List ℚ × ℚ × Nat) :=
  chunks.foldlM (trainBatch cfg pad) (w, 0, 0)

/-- One epoch of `train_model` (lines 121-141): the batch loop over the
train chunks followed by `evaluate_model` on the test dataloader. -/
def trainOneEpoch (cfg : TrainCfg) (pad : Nat) (trainChunks testChunks : List (List Record))
    (testDlen : Nat) (w : List ℚ) : Except EvalError (List ℚ) :=
  match trainEpoch cfg pad w trainChunks with
  | none => Except.error EvalError.broadcastError
  | some st => (evaluateModel (cfg.forward st.1) testChunks testDlen pad).map fun _ => st.1

/-- `DGADetector.train_model` after `_preprocess_data` (the sklearn
`train_test_split` and the dataloader construction are external): run
`epochs` epochs, each ending in `evaluate_model` on the test partition. -/
def trainModel (cfg : TrainCfg) (epochs : Nat) (trainChunks testChunks : List (List Record))
    (testDlen pad : Nat) (w0 : List ℚ) : Except EvalError (List ℚ) :=
  (List.range epochs).foldlM
    (fun w _ => trainOneEpoch cfg pad trainChunks testChunks testDlen w) w0

/-- The network as reconstructed from / serialized into a checkpoint: the
four architecture hyperparameters and the trained parameters
(`state_dict`, modelled as a list of rationals). -/
structure RNNClassifier where
  input_size : Nat
  hidden_size : Nat
  output_size : Nat
  n_layers : Nat
  state_dict : List ℚ

/-- A value stored under one key of a checkpoint record: an architecture
hyperparameter or the trained parameters. -/
inductive CkptVal where
  | num (n : Nat)
  | params (w : List ℚ)

/-- `DGADetector.save_checkpoint` (lines 73-87): the persisted mapping, with
exactly the keys the source writes, in source order.  (`torch.save` and the
base class `_save_checkpoint` are external and assumed to persist the record
faithfully.) -/
def saveCheckpoint (m : RNNClassifier) : List (String × CkptVal) :=
  [(("state_dict"), CkptVal.params m.state_dict),
   (("input_size"), CkptVal.num m.input_size),
   (("hidden_size"), CkptVal.num m.hidden_size),
   (("n_layers"), CkptVal.num m.n_layers),
   (("output_size"), CkptVal.num m.output_size)]

/-- `checkpoint[key]`: look a key up in the persisted mapping. -/
def ckptLookup (c : List (String × CkptVal)) (k : String) : Option CkptVal :=
  (c.find? fun p => p.1 == k).map fun p => p.2

/-- `DGADetector.load_checkpoint` (lines 57-71): read the four architecture
hyperparameters, rebuild `RNNClassifier(input_size, hidden_size, output_size,
n_layers)`, and install the stored `state_dict`; a missing key or a
wrongly-typed value fails. -/
def loadCheckpoint (c : List (String × CkptVal)) : Option RNNClassifier :=
  match ckptLookup c ("input_size"), ckptLookup c ("hidden_size"),
      ckptLookup c ("output_size"), ckptLookup c ("n_layers"),
      ckptLookup c ("state_dict") with
  | some (CkptVal.num i), some (CkptVal.num h), some (CkptVal.num o),
      some (CkptVal.num n), some (CkptVal.params sd) =>
    some { input_size := i, hidden_size := h, output_size := o, n_layers := n,
           state_dict := sd }
  | _, _, _, _, _ => none

/-- The mutable state `predict`/`train_model` act on: the trained parameters
of the active model and the module's training-mode flag (toggled by
`self.model.train()` / `self.model.eval()`). -/
structure DetectorState where
  weights : List ℚ
  training : Bool

/-- `DGADetector.predict` as a state transformer: `self.model.eval()` clears
the training-mode flag (line 170), then the inference pipeline runs as a pure
forward pass — no loss, no backward, no optimizer step touches the weights. -/
noncomputable def predictS (fwd : List ℚ → List (List Nat) → List Nat → List (List ℚ))
    (s : DetectorState) (domains : List String) (probability : Bool)
    (truncate pad : Nat) (σ : List Nat) : Option (List (ℝ ⊕ Nat)) × DetectorState :=
  let s' : DetectorState := { s with training := false }
  (if probability then
    (predictProb (fwd s'.weights) domains truncate pad σ).map fun l => l.map Sum.inl
  else
    (predictLabels (fwd s'.weights) domains truncate pad σ).map fun l => l.map Sum.inr,
   s')

/-- The flat specification-side count for `evaluate_model`: per chunk, how
many examples have their arg-max prediction equal to their label. -/
def chunkCorrect (model : List (List Nat) → List Nat → List (List ℚ)) (pad : Nat)
    (c : List Record) : Nat :=
  countCorrect ((model (c.map fun r => padTo pad r.codes) (c.map Record.len)).map argmaxIdx)
    (c.map Record.type)

/-- Total number of examples over all chunks whose arg-max prediction equals
their true label. -/
def specCorrect (model : List (List Nat) → List Nat → List (List ℚ)) (pad : Nat)
    (chunks : List (List Record)) : Nat :=
  (chunks.map (chunkCorrect model pad)).sum

/-! ### Helper lemmas -/

lemma charCodes_length (s : String) : (charCodes s).length = s.length := by
  unfold charCodes
  rw [List.length_map]
  rfl

lemma truncateDomain_empty (t : Nat) : truncateDomain t ("") = ("") := by
  unfold truncateDomain
  have h : ("" : String).data = [] := rfl
  rw [h, List.take_nil]

lemma truncateDomain_length (t : Nat) (s : String) :
    (truncateDomain t s).length = min t s.length := by
  unfold truncateDomain
  show (s.data.take t).length = min t s.length
  rw [List.length_take]
  rfl

lemma getD_map {α β : Type} (f : α → β) (l : List α) (d : α) (i : Nat) :
    (l.map f).getD i (f d) = f (l.getD i d) := by
  induction l generalizing i with
  | nil => simp
  | cons a t ih => cases i <;> simp [ih]

lemma getD_map_lt {α β : Type} (f : α → β) (l : List α) (d : β) (d' : α) {i : Nat}
    (h : i < l.length) : (l.map f).getD i d = f (l.getD i d') := by
  induction l generalizing i with
  | nil => simp at h
  | cons a t ih =>
    cases i with
    | zero => simp
    | succ j =>
      simp only [List.map_cons, List.getD_cons_succ]
      exact ih (by simpa using h)

lemma mem_le_maxLen {s : String} {ds : List String} (h : s ∈ ds) :
    s.length ≤ maxLen ds := by
  induction ds with
  | nil => cases h
  | cons a t ih =>
    rcases List.mem_cons.1 h with h | h
    · subst h; simp [maxLen]
    · simp only [maxLen, List.map_cons, List.foldr_cons]
      exact le_trans (ih h) (le_max_right _ _)

lemma maxLen_le {ds : List String} {m : Nat} (h : ∀ s ∈ ds, s.length ≤ m) :
    maxLen ds ≤ m := by
  induction ds with
  | nil => simp [maxLen]
  | cons a t ih =>
    simp only [maxLen, List.map_cons, List.foldr_cons, max_le_iff]
    exact ⟨h a (by simp), ih fun s hs => h s (by simp [hs])⟩

lemma filterMap_congr_some {α β : Type} {l : List α} {g : α → Option β} {h : α → β}
    (H : ∀ a ∈ l, g a = some (h a)) : l.filterMap g = l.map h := by
  induction l with
  | nil => rfl
  | cons a t ih =>
    rw [List.filterMap_cons, H a (by simp), List.map_cons,
      ih fun x hx => H x (by simp [hx])]

lemma find?_pairs {α : Type} {σ : List Nat} (F : Nat → α) {j : Nat} (h : j ∈ σ) :
    (σ.map fun i => (i, F i)).find? (fun p => p.1 == j) = some (j, F j) := by
  induction σ with
  | nil => cases h
  | cons a t ih =>
    by_cases hj : a = j
    · subst hj
      simp [List.find?_cons_of_pos]
    · rw [List.map_cons, List.find?_cons_of_neg _ (by simpa using hj)]
      rcases List.mem_cons.1 h with h | h
      · exact absurd h.symm hj
      · exact ih h

lemma zipWith_map_same {α β γ δ : Type} (f : β → γ → δ) (u : α → β) (v : α → γ)
    (l : List α) :
    List.zipWith f (l.map u) (l.map v) = l.map fun a => f (u a) (v a) := by
  induction l with
  | nil => rfl
  | cons a t ih => simp [ih]

lemma zip_map_same {α β : Type} (F : α → β) (l : List α) :
    l.zip (l.map F) = l.map fun a => (a, F a) := by
  induction l with
  | nil => rfl
  | cons a t ih => simp [List.zip_cons_cons, ih]

lemma map_zip_same {α β : Type} (F : α → β) (l : List α) :
    (l.map F).zip l = l.map fun a => (F a, a) := by
  induction l with
  | nil => rfl
  | cons a t ih => simp [List.zip_cons_cons, ih]

lemma range_map_getD {α β : Type} (l : List α) (d : α) (h : α → β) :
    (List.range l.length).map (fun j => h (l.getD j d)) = l.map h := by
  induction l with
  | nil => rfl
  | cons a t ih =>
    rw [List.length_cons, List.range_succ_eq_map]
    simp only [List.map_cons, List.getD_cons_zero, List.map_map]
    rw [show ((fun j => h ((a :: t).getD j d)) ∘ Nat.succ) = fun j => h (t.getD j d) from
      funext fun j => by simp, ih]

lemma sortIndex_perm_range {α : Type} {σ : List Nat} {n : Nat} (F : Nat → α)
    (hσ : σ.Perm (List.range n)) :
    sortIndex (σ.map fun i => (i, F i)) = (List.range n).map fun j => (j, F j) := by
  have hlen : (σ.map fun i => (i, F i)).length = n := by simp [hσ.length_eq]
  unfold sortIndex
  rw [hlen]
  exact filterMap_congr_some fun j hj => find?_pairs F (hσ.mem_iff.2 hj)

lemma getD_replicate {α : Type} (x d : α) {i k : Nat} (h : i < k) :
    (List.replicate k x).getD i d = x := by
  induction k generalizing i with
  | zero => omega
  | succ m ih =>
    cases i with
    | zero => simp [List.replicate_succ]
    | succ j => simpa [List.replicate_succ] using ih (by omega)

lemma getD_append_right {α : Type} (l l' : List α) (d : α) {i : Nat}
    (h : l.length ≤ i) : (l ++ l').getD i d = l'.getD (i - l.length) d := by
  induction l generalizing i with
  | nil => simp
  | cons a t ih =>
    cases i with
    | zero => simp at h
    | succ j => simpa using ih (by simpa using h)

lemma padTo_append_replicate (c : List Nat) {w pad : Nat} (h1 : c.length ≤ w)
    (h2 : w ≤ pad) :
    padTo pad (c ++ List.replicate (w - c.length) 0) = padTo pad c := by
  have hlen : (c ++ List.replicate (w - c.length) (0 : Nat)).length = w := by
    simp
    omega
  unfold padTo
  rw [hlen, List.append_assoc, ← List.replicate_add,
    show w - c.length + (pad - w) = pad - c.length from by omega]

lemma argmaxIdx_lt : ∀ (l : List ℚ), l ≠ [] → argmaxIdx l < l.length
  | [], h => absurd rfl h
  | [_], _ => by simp [argmaxIdx]
  | x :: y :: t, _ => by
    rw [show argmaxIdx (x :: y :: t)
        = if listMax (y :: t) ≤ x then 0 else argmaxIdx (y :: t) + 1 from rfl]
    split
    · simp
    · have ih := argmaxIdx_lt (y :: t) (by simp)
      simp only [List.length_cons] at ih ⊢
      omega

lemma sigmoid_nonneg (x : ℚ) : 0 ≤ sigmoid x := by
  unfold sigmoid
  positivity

lemma sigmoid_le_one (x : ℚ) : sigmoid x ≤ 1 := by
  unfold sigmoid
  rw [div_le_one (by positivity)]
  have := Real.exp_pos (-(x : ℝ))
  linarith

lemma sigmoid_lt_sigmoid {x y : ℚ} (h : x < y) : sigmoid x < sigmoid y := by
  unfold sigmoid
  have hxy : (x : ℝ) < (y : ℝ) := by exact_mod_cast h
  have hexp : Real.exp (-(y : ℝ)) < Real.exp (-(x : ℝ)) := Real.exp_lt_exp.2 (by linarith)
  exact one_div_lt_one_div_of_lt (by positivity) (by linarith)

lemma countCorrect_le (pred target : List Nat) :
    countCorrect pred target ≤ target.length := by
  unfold countCorrect
  calc (List.zipWith (fun p t => p == t) pred target).count true
      ≤ (List.zipWith (fun p t => p == t) pred target).length := List.count_le_length _ _
    _ = min pred.length target.length := List.length_zipWith _ _ _
    _ ≤ target.length := Nat.min_le_right _ _

/-- Characterization of `predict` when the network computes its output rows
independently (per-row function `g`): the result is exactly the per-domain
map over the original input list, independent of the internal reordering. -/
lemma predictWith_eq {α : Type} (f : List ℚ → α) (g : List Nat → Nat → List ℚ)
    (model : List (List Nat) → List Nat → List (List ℚ))
    (hrow : ∀ input lens, model input lens = List.zipWith g input lens)
    (domains : List String) (σ : List Nat)
    (hσ : σ.Perm (List.range domains.length))
    (truncate pad : Nat)
    (hw : ∀ s ∈ domains, (truncateDomain truncate s).length ≤ pad) :
    predictWith f model domains truncate pad σ =
      some (domains.map fun s => f (perDomainLogits g truncate pad s)) := by
  have hdsm : ∀ s ∈ domains.map (truncateDomain truncate), s.length ≤ pad := by
    intro s hs
    rcases List.mem_map.1 hs with ⟨a, ha, rfl⟩
    exact hw a ha
  have hmax : maxLen (domains.map (truncateDomain truncate)) ≤ pad := maxLen_le hdsm
  set ds := domains.map (truncateDomain truncate) with hds
  -- the length of a row's len entry is bounded by the batch width
  have hL : ∀ i : Nat, (ds.getD i ("")).length ≤ maxLen ds := by
    intro i
    by_cases h : i < ds.length
    · refine mem_le_maxLen ?_
      rw [List.getD_eq_getElem _ _ h]
      exact ds.getElem_mem h
    · rw [List.getD_eq_default _ _ (by omega)]
      exact Nat.zero_le _
  -- the code columns of every row have exactly the batch width
  have hC : ∀ i : Nat,
      (charCodes (ds.getD i ("")) ++
        List.replicate (maxLen ds - (ds.getD i ("")).length) 0).length = maxLen ds := by
    intro i
    rw [List.length_append, List.length_replicate, charCodes_length]
    have := hL i
    omega
  -- the vectorized frame, in processing order
  have hframe : (str2ascii ds σ).map (fun r => (r.codes, r.len)) =
      σ.map fun i =>
        (charCodes (ds.getD i ("")) ++
          List.replicate (maxLen ds - (ds.getD i ("")).length) 0,
         (ds.getD i ("")).length) := by
    simp [str2ascii, List.map_map]
  have hguard : ((str2ascii ds σ).map fun r => (r.codes, r.len)).all
      (fun r => r.1.length ≤ pad) = true := by
    rw [hframe, List.all_eq_true]
    intro x hx
    rcases List.mem_map.1 hx with ⟨i, _, rfl⟩
    simp only [decide_eq_true_eq]
    exact le_trans (le_of_eq (hC i)) hmax
  have hcv : createVariables ((str2ascii ds σ).map fun r => (r.codes, r.len)) pad =
      some (σ.map fun i => padTo pad (charCodes (ds.getD i (""))),
            σ.map fun i => (ds.getD i ("")).length) := by
    unfold createVariables
    rw [if_pos hguard, hframe]
    simp only [List.map_map, Function.comp]
    refine congrArg some (Prod.ext ?_ rfl)
    refine List.map_congr_left fun i _ => ?_
    show padTo pad (charCodes (ds.getD i ("")) ++
        List.replicate (maxLen ds - (ds.getD i ("")).length) 0)
      = padTo pad (charCodes (ds.getD i ("")))
    rw [show maxLen ds - (ds.getD i ("")).length
        = maxLen ds - (charCodes (ds.getD i (""))).length from by rw [charCodes_length]]
    exact padTo_append_replicate _ (by rw [charCodes_length]; exact hL i) hmax
  -- now unfold predict and push everything through to a map over the input
  unfold predictWith
  show (createVariables ((str2ascii ds σ).map fun r => (r.codes, r.len)) pad).map
      (fun v => (sortIndex (((str2ascii ds σ).map Row.idx).zip
        ((model v.1 v.2).map f))).map fun p => p.2)
    = some (domains.map fun s => f (perDomainLogits g truncate pad s))
  rw [hcv]
  refine congrArg some ?_
  have hidx : (str2ascii ds σ).map Row.idx = σ := by
    unfold str2ascii
    rw [List.map_map]
    show σ.map (fun i => i) = σ
    simp
  rw [hidx]
  show (sortIndex (σ.zip ((model (σ.map fun i => padTo pad (charCodes (ds.getD i (""))))
      (σ.map fun i => (ds.getD i ("")).length)).map f))).map (fun p => p.2)
    = domains.map fun s => f (perDomainLogits g truncate pad s)
  rw [hrow, zipWith_map_same, List.map_map]
  rw [show (f ∘ fun i =>
        g (padTo pad (charCodes (ds.getD i ("")))) (ds.getD i ("")).length)
      = fun i => f (perDomainLogits g truncate pad (domains.getD i (""))) from
    funext fun i => by
      have hdi : ds.getD i ("") = truncateDomain truncate (domains.getD i ("")) := by
        conv_lhs => rw [hds, ← truncateDomain_empty truncate]
        rw [getD_map]
      show f (g (padTo pad (charCodes (ds.getD i ("")))) (ds.getD i ("")).length)
        = f (perDomainLogits g truncate pad (domains.getD i ("")))
      rw [hdi]
      rfl]
  rw [zip_map_same, sortIndex_perm_range _ hσ, List.map_map]
  rw [show ((fun p : Nat × α => p.2) ∘ fun j =>
        (j, f (perDomainLogits g truncate pad (domains.getD j (""))))) =
      fun j => f (perDomainLogits g truncate pad (domains.getD j (""))) from rfl]
  exact range_map_getD domains ("") fun s => f (perDomainLogits g truncate pad s)

lemma evalBatch_nil (model : List (List Nat) → List Nat → List (List ℚ)) (pad : Nat)
    (correct : Nat) : evalBatch model pad correct [] = some correct := by
  unfold evalBatch createVariables
  simp [countCorrect]

lemma trainFold_filter (cfg : TrainCfg) (pad : Nat) (chunks : List (List Record)) :
    ∀ st, chunks.foldlM (trainBatch cfg pad) st
      = (chunks.filter fun c => 0 < c.length).foldlM (trainBatch cfg pad) st := by
  induction chunks with
  | nil => intro st; rfl
  | cons c t ih =>
    intro st
    by_cases hc : 0 < c.length
    · rw [List.filter_cons_of_pos (by simpa using hc), List.foldlM_cons, List.foldlM_cons]
      cases h : trainBatch cfg pad st c <;> simp [h, ih]
    · have hb : trainBatch cfg pad st c = some st := by
        unfold trainBatch
        rw [if_neg hc]
      rw [List.filter_cons_of_neg (by simpa using hc), List.foldlM_cons, hb]
      simpa using ih st

lemma evalFold_filter (model : List (List Nat) → List Nat → List (List ℚ)) (pad : Nat)
    (chunks : List (List Record)) :
    ∀ correct : Nat, chunks.foldlM (evalBatch model pad) correct
      = (chunks.filter fun c => 0 < c.length).foldlM (evalBatch model pad) correct := by
  induction chunks with
  | nil => intro c0; rfl
  | cons c t ih =>
    intro c0
    by_cases hc : 0 < c.length
    · rw [List.filter_cons_of_pos (by simpa using hc), List.foldlM_cons, List.foldlM_cons]
      cases h : evalBatch model pad c0 c <;> simp [h, ih]
    · have hnil : c = [] := List.length_eq_zero.1 (by omega)
      subst hnil
      rw [List.filter_cons_of_neg (by simp), List.foldlM_cons, evalBatch_nil]
      simpa using ih c0

lemma chunk_guard (pad : Nat) (c : List Record) (hwf : ∀ r ∈ c, r.codes.length ≤ pad) :
    ((c.map fun r => (r.codes, r.len)).all fun r => decide (r.1.length ≤ pad)) = true := by
  rw [List.all_eq_true]
  intro x hx
  rcases List.mem_map.1 hx with ⟨r, hr, rfl⟩
  exact decide_eq_true (hwf r hr)

lemma evalBatch_wf (model : List (List Nat) → List Nat → List (List ℚ)) (pad : Nat)
    (correct : Nat) (c : List Record) (hwf : ∀ r ∈ c, r.codes.length ≤ pad) :
    evalBatch model pad correct c = some (correct + chunkCorrect model pad c) := by
  unfold evalBatch createVariables
  rw [if_pos (chunk_guard pad c hwf)]
  refine congrArg some ?_
  rw [List.map_map, List.map_map]
  rfl

lemma evalFold_wf (model : List (List Nat) → List Nat → List (List ℚ)) (pad : Nat) :
    ∀ (chunks : List (List Record)), (∀ c ∈ chunks, ∀ r ∈ c, r.codes.length ≤ pad) →
    ∀ correct : Nat, chunks.foldlM (evalBatch model pad) correct
      = some (correct + specCorrect model pad chunks)
  | [], _, c0 => by simp [specCorrect]
  | c :: t, hwf, c0 => by
    rw [List.foldlM_cons, evalBatch_wf model pad c0 c fun r hr => hwf c (by simp) r hr]
    show t.foldlM (evalBatch model pad) (c0 + chunkCorrect model pad c)
      = some (c0 + specCorrect model pad (c :: t))
    rw [evalFold_wf model pad t (fun c' hc' r hr => hwf c' (by simp [hc']) r hr)
      (c0 + chunkCorrect model pad c)]
    refine congrArg some ?_
    simp only [specCorrect, List.map_cons, List.sum_cons]
    omega

lemma chunkCorrect_le (model : List (List Nat) → List Nat → List (List ℚ)) (pad : Nat)
    (c : List Record) : chunkCorrect model pad c ≤ c.length := by
  unfold chunkCorrect
  calc countCorrect ((model (c.map fun r => padTo pad r.codes) (c.map Record.len)).map
          argmaxIdx) (c.map Record.type)
      ≤ (c.map Record.type).length := countCorrect_le _ _
    _ = c.length := List.length_map _ _

lemma specCorrect_le (model : List (List Nat) → List Nat → List (List ℚ)) (pad : Nat)
    (chunks : List (List Record)) :
    specCorrect model pad chunks ≤ (chunks.map List.length).sum := by
  unfold specCorrect
  induction chunks with
  | nil => simp
  | cons c t ih =>
    simp only [List.map_cons, List.sum_cons]
    exact Nat.add_le_add (chunkCorrect_le model pad c) ih

lemma trainBatch_wf (cfg : TrainCfg) (pad : Nat) (st : List ℚ × ℚ × Nat)
    (c : List Record) (hwf : ∀ r ∈ c, r.codes.length ≤ pad) :
    ∃ st', trainBatch cfg pad st c = some st' := by
  unfold trainBatch
  split
  · unfold createVariables
    rw [if_pos (chunk_guard pad c hwf)]
    exact ⟨_, rfl⟩
  · exact ⟨st, rfl⟩

lemma trainFold_wf (cfg : TrainCfg) (pad : Nat) :
    ∀ (chunks : List (List Record)), (∀ c ∈ chunks, ∀ r ∈ c, r.codes.length ≤ pad) →
    ∀ st, ∃ st', chunks.foldlM (trainBatch cfg pad) st = some st'
  | [], _, st => ⟨st, rfl⟩
  | c :: t, hwf, st => by
    obtain ⟨st1, hb⟩ := trainBatch_wf cfg pad st c fun r hr => hwf c (by simp) r hr
    obtain ⟨st', h'⟩ := trainFold_wf cfg pad t (fun c' hc' r hr => hwf c' (by simp [hc']) r hr) st1
    refine ⟨st', ?_⟩
    rw [List.foldlM_cons, hb]
    exact h'

lemma evaluateModel_zero (model : List (List Nat) → List Nat → List (List ℚ))
    (chunks : List (List Record)) (pad : Nat)
    (hwf : ∀ c ∈ chunks, ∀ r ∈ c, r.codes.length ≤ pad) :
    evaluateModel model chunks 0 pad = Except.error EvalError.divisionByZero := by
  unfold evaluateModel
  rw [evalFold_wf model pad chunks hwf 0]
  rfl

/-! ### The claims -/

/-- C4: the truncation `predict` applies before vectorization keeps exactly
the leading characters: a domain longer than the truncation width is reduced
to exactly that width, and a domain at or under the width is unchanged. -/
theorem truncate_before_vectorize (s : String) (t : Nat) :
    (truncateDomain t s).data = s.data.take t
    ∧ (truncateDomain t s).length = min t s.length
    ∧ (t < s.length → (truncateDomain t s).length = t)
    ∧ (s.length ≤ t → truncateDomain t s = s) := by
  refine ⟨rfl, truncateDomain_length t s, ?_, ?_⟩
  · intro h
    rw [truncateDomain_length]
    omega
  · intro h
    unfold truncateDomain
    have hd : s.data.length ≤ t := h
    rw [List.take_of_length_le hd]

/-- Witness for the truncation claim at concrete inputs: a 4-character
domain truncated to width 2 has length 2, and truncated to width 5 it is
unchanged. -/
theorem truncate_before_vectorize_w :
    (truncateDomain 2 ("abcd")).length = 2 ∧ truncateDomain 5 ("abcd") = ("abcd") :=
  ⟨(truncate_before_vectorize ("abcd") 2).2.2.1 (by decide),
   (truncate_before_vectorize ("abcd") 5).2.2.2 (by decide)⟩

/-- C2: saving a checkpoint and loading it back reconstructs the same
network (all four architecture hyperparameters and the trained parameters
round-trip through the persisted keys), hence `predict` gives identical
outputs, in both modes, for identical inputs. -/
theorem checkpoint_roundtrip_predict (m : RNNClassifier) :
    ∃ m', loadCheckpoint (saveCheckpoint m) = some m'
      ∧ ∀ (fwd : RNNClassifier → List (List Nat) → List Nat → List (List ℚ))
          (domains : List String) (truncate pad : Nat) (σ : List Nat),
          predictProb (fwd m') domains truncate pad σ
            = predictProb (fwd m) domains truncate pad σ
          ∧ predictLabels (fwd m') domains truncate pad σ
            = predictLabels (fwd m) domains truncate pad σ :=
  ⟨m, rfl, fun _ _ _ _ _ => ⟨rfl, rfl⟩⟩

/-- C10 (amended): predict performs no loss computation, backpropagation or
optimizer step, so the trained parameters are identical before and after the
call; but `self.model.eval()` does switch the module to evaluation mode, so
the training-mode flag is false afterwards (and in general differs from the
state observed before the call). -/
theorem predict_preserves_weights
    (fwd : List ℚ → List (List Nat) → List Nat → List (List ℚ))
    (s : DetectorState) (domains : List String) (probability : Bool)
    (truncate pad : Nat) (σ : List Nat) :
    ((predictS fwd s domains probability truncate pad σ).2).weights = s.weights
    ∧ ((predictS fwd s domains probability truncate pad σ).2).training = false :=
  ⟨rfl, rfl⟩

/-- C10 counterexample: for a model observed in training mode, the model
state after `predict` differs from the state before the call — the
training-mode flag has been cleared by `self.model.eval()`. -/
theorem predict_eval_mode_cex :
    (predictS (fun _ input _ => input.map fun _ => [0]) ⟨[], true⟩ (["a"]) true
        100 100 [0]).2 ≠ ⟨[], true⟩ := by
  intro h
  have h2 := congrArg DetectorState.training h
  simp [predictS] at h2

/-- C5: in both `train_model`'s per-epoch batch loop and `evaluate_model`'s
batch loop, chunks with zero rows are passed over silently: dropping them
changes neither the training state (weights, total loss, batch counter) nor
the evaluation result — they contribute nothing and raise no error. -/
theorem empty_batches_skipped :
    (∀ (cfg : TrainCfg) (pad : Nat) (w : List ℚ) (chunks : List (List Record)),
        trainEpoch cfg pad w chunks
          = trainEpoch cfg pad w (chunks.filter fun c => 0 < c.length))
    ∧ (∀ (model : List (List Nat) → List Nat → List (List ℚ))
        (chunks : List (List Record)) (dlen pad : Nat),
        evaluateModel model chunks dlen pad
          = evaluateModel model (chunks.filter fun c => 0 < c.length) dlen pad) := by
  constructor
  · intro cfg pad w chunks
    unfold trainEpoch
    exact trainFold_filter cfg pad chunks (w, 0, 0)
  · intro model chunks dlen pad
    unfold evaluateModel
    rw [evalFold_filter model pad chunks 0]

/-- C6: for a dataloader with at least one example (and chunk sizes summing
to its `dataset_len`), `evaluate_model` returns exactly the number of
examples whose arg-max prediction equals the true label, divided by the total
number of examples, and this accuracy lies in `[0, 1]`. -/
theorem evaluate_accuracy_spec (model : List (List Nat) → List Nat → List (List ℚ))
    (chunks : List (List Record)) (dlen pad : Nat)
    (hwf : ∀ c ∈ chunks, ∀ r ∈ c, r.codes.length ≤ pad)
    (hlen : dlen = (chunks.map List.length).sum)
    (hpos : 0 < dlen) :
    evaluateModel model chunks dlen pad
      = Except.ok ((specCorrect model pad chunks : ℚ) / (dlen : ℚ))
    ∧ 0 ≤ ((specCorrect model pad chunks : ℚ) / (dlen : ℚ))
    ∧ ((specCorrect model pad chunks : ℚ) / (dlen : ℚ)) ≤ 1 := by
  refine ⟨?_, by positivity, ?_⟩
  · unfold evaluateModel
    rw [evalFold_wf model pad chunks hwf 0]
    show (if dlen = 0 then Except.error EvalError.divisionByZero
        else Except.ok (((0 + specCorrect model pad chunks : Nat) : ℚ) / (dlen : ℚ)))
      = Except.ok ((specCorrect model pad chunks : ℚ) / (dlen : ℚ))
    rw [if_neg (by omega), Nat.zero_add]
  · rw [div_le_one (by exact_mod_cast hpos)]
    have h1 : specCorrect model pad chunks ≤ dlen := by
      rw [hlen]
      exact specCorrect_le model pad chunks
    exact_mod_cast h1

/-- Fixed network for the evaluation witness: every row gets logits [1, 0]. -/
def mW6 : List (List Nat) → List Nat → List (List ℚ) :=
  fun input _ => input.map fun _ => [1, 0]

/-- Fixed one-example dataloader contents for the evaluation witness. -/
def cW6 : List (List Record) := [[⟨("a"), 0, [97], 1⟩]]

/-- Witness for the evaluation-accuracy claim on a one-example dataloader. -/
theorem evaluate_accuracy_spec_w :
    evaluateModel mW6 cW6 1 100
      = Except.ok ((specCorrect mW6 100 cW6 : ℚ) / ((1 : Nat) : ℚ))
    ∧ 0 ≤ ((specCorrect mW6 100 cW6 : ℚ) / ((1 : Nat) : ℚ))
    ∧ ((specCorrect mW6 100 cW6 : ℚ) / ((1 : Nat) : ℚ)) ≤ 1 :=
  evaluate_accuracy_spec mW6 cW6 1 100 (by decide) (by decide) (by decide)

/-- C9: with `dataset_len = 0`, `evaluate_model` hits
`float(correct) / dataloader.dataset_len` with a zero denominator and raises
a division-by-zero error instead of returning an accuracy; consequently
`train_model` fails the same way at the end of its first epoch whenever the
train/test split leaves the test partition empty, for any positive number of
epochs. -/
theorem zero_dataset_division_error
    (model : List (List Nat) → List Nat → List (List ℚ))
    (chunks : List (List Record)) (pad : Nat)
    (hwf : ∀ c ∈ chunks, ∀ r ∈ c, r.codes.length ≤ pad)
    (cfg : TrainCfg) (epochs : Nat) (trainChunks : List (List Record)) (w0 : List ℚ)
    (hwt : ∀ c ∈ trainChunks, ∀ r ∈ c, r.codes.length ≤ pad)
    (hep : 0 < epochs) :
    evaluateModel model chunks 0 pad = Except.error EvalError.divisionByZero
    ∧ trainModel cfg epochs trainChunks chunks 0 pad w0
        = Except.error EvalError.divisionByZero := by
  refine ⟨evaluateModel_zero model chunks pad hwf, ?_⟩
  obtain ⟨k, rfl⟩ : ∃ k, epochs = k + 1 := ⟨epochs - 1, by omega⟩
  unfold trainModel
  rw [List.range_succ_eq_map, List.foldlM_cons]
  have hone : trainOneEpoch cfg pad trainChunks chunks 0 w0
      = Except.error EvalError.divisionByZero := by
    unfold trainOneEpoch
    obtain ⟨st', hst'⟩ := trainFold_wf cfg pad trainChunks hwt (w0, 0, 0)
    rw [show trainEpoch cfg pad w0 trainChunks = some st' from hst']
    show (evaluateModel (cfg.forward st'.1) chunks 0 pad).map (fun _ => st'.1)
      = Except.error EvalError.divisionByZero
    rw [evaluateModel_zero (cfg.forward st'.1) chunks pad hwf]
    rfl
  rw [hone]
  rfl

/-- Fixed training configuration for the division-by-zero witness. -/
def cfgW : TrainCfg :=
  { forward := fun _ input _ => input.map fun _ => [0]
    criterion := fun _ _ => 0
    step := fun w _ _ _ => w }

/-- Witness for the division-by-zero claim: an empty test dataloader makes
`evaluate_model` (and hence one-epoch `train_model`) raise. -/
theorem zero_dataset_division_error_w :
    evaluateModel (fun _ _ => []) [] 0 100 = Except.error EvalError.divisionByZero
    ∧ trainModel cfgW 1 [] [] 0 100 [] = Except.error EvalError.divisionByZero :=
  zero_dataset_division_error (fun _ _ => []) [] 100 (by simp) cfgW 1 [] []
    (by simp) (by decide)

lemma predictWith_mem {α : Type} {f : List ℚ → α}
    {model : List (List Nat) → List Nat → List (List ℚ)}
    {domains : List String} {truncate pad : Nat} {σ : List Nat} {out : List α}
    (h : predictWith f model domains truncate pad σ = some out) :
    ∀ x ∈ out, ∃ input lens r, r ∈ model input lens ∧ x = f r := by
  rw [show predictWith f model domains truncate pad σ
      = (createVariables ((str2ascii (domains.map (truncateDomain truncate)) σ).map
          fun r => (r.codes, r.len)) pad).map fun v =>
        (sortIndex (((str2ascii (domains.map (truncateDomain truncate)) σ).map Row.idx).zip
          ((model v.1 v.2).map f))).map fun p => p.2 from rfl] at h
  cases hc : createVariables ((str2ascii (domains.map (truncateDomain truncate)) σ).map
      fun r => (r.codes, r.len)) pad with
  | none =>
    rw [hc] at h
    exact absurd h (by simp)
  | some v =>
    rw [hc] at h
    have hGv := Option.some.inj h
    intro x hx
    rw [← hGv] at hx
    rcases List.mem_map.1 hx with ⟨⟨a, b⟩, hp, rfl⟩
    rcases List.mem_filterMap.1 hp with ⟨j, _, hfind⟩
    have hmem := List.mem_of_find?_eq_some hfind
    have hb := (List.of_mem_zip hmem).2
    rcases List.mem_map.1 hb with ⟨r, hr, rfl⟩
    exact ⟨v.1, v.2, r, hr, rfl⟩

/-- C1: for every internal reordering `σ` of the vectorization step (any
permutation of the input positions) and a network that computes its output
rows independently, `predict` returns a sequence of exactly the input's
length, and — in both output modes — the result is the per-domain map over
the original input list: entry `j` is computed from domain `j`, so the output
is aligned one-to-one with the input and in the input order, independent of
`σ`. -/
theorem predict_output_aligned (g : List Nat → Nat → List ℚ)
    (model : List (List Nat) → List Nat → List (List ℚ))
    (hrow : ∀ input lens, model input lens = List.zipWith g input lens)
    (domains : List String) (σ : List Nat)
    (hσ : σ.Perm (List.range domains.length))
    (truncate pad : Nat)
    (hw : ∀ s ∈ domains, (truncateDomain truncate s).length ≤ pad) :
    (∃ out, predictProb model domains truncate pad σ = some out
      ∧ out.length = domains.length
      ∧ out = domains.map fun s => sigmoid ((perDomainLogits g truncate pad s).headD 0))
    ∧ (∃ out, predictLabels model domains truncate pad σ = some out
      ∧ out.length = domains.length
      ∧ out = domains.map fun s => argmaxIdx (perDomainLogits g truncate pad s)) :=
  ⟨⟨_, predictWith_eq _ g model hrow domains σ hσ truncate pad hw, by simp, rfl⟩,
   ⟨_, predictWith_eq _ g model hrow domains σ hσ truncate pad hw, by simp, rfl⟩⟩

/-- Fixed per-row network for the alignment witness. -/
def gW : List Nat → Nat → List ℚ := fun _ _ => [1, 2]

/-- The batch network induced by `gW`, row by row. -/
def mW : List (List Nat) → List Nat → List (List ℚ) :=
  fun input lens => List.zipWith gW input lens

/-- Witness for the alignment claim at two domains and the nontrivial
internal reordering `[1, 0]`. -/
theorem predict_output_aligned_w :
    (∃ out, predictProb mW (["ab", "c"]) 100 100 [1, 0] = some out
      ∧ out.length = (["ab", "c"] : List String).length
      ∧ out = (["ab", "c"] : List String).map fun s =>
          sigmoid ((perDomainLogits gW 100 100 s).headD 0))
    ∧ (∃ out, predictLabels mW (["ab", "c"]) 100 100 [1, 0] = some out
      ∧ out.length = (["ab", "c"] : List String).length
      ∧ out = (["ab", "c"] : List String).map fun s =>
          argmaxIdx (perDomainLogits gW 100 100 s)) :=
  predict_output_aligned gW mW (fun _ _ => rfl) (["ab", "c"]) [1, 0] (by decide)
    100 100 (by decide)

/-- Network for the probability-column counterexample: every row gets logits
[1, 0] — column 0 holds logit 1, the DGA column (class index 1) holds 0. -/
def mColW : List (List Nat) → List Nat → List (List ℚ) :=
  fun input _ => input.map fun _ => [1, 0]

/-- C3 counterexample: with output row `[1, 0]`, predict with
probability=True returns the sigmoid of column 0 (logit 1), not the
sigmoid of the class-index-1 logit (logit 0) that the claim names. -/
theorem predict_probability_column_cex :
    predictProb mColW (["ab"]) 100 100 [0] = some [sigmoid 1]
    ∧ predictProb mColW (["ab"]) 100 100 [0] ≠ some [sigmoid 0] := by
  have h1 : predictProb mColW (["ab"]) 100 100 [0] = some [sigmoid 1] := rfl
  refine ⟨h1, ?_⟩
  rw [h1]
  intro h
  have h2 : sigmoid 1 = sigmoid 0 := (List.cons.inj (Option.some.inj h)).1
  exact ne_of_gt (sigmoid_lt_sigmoid (by norm_num)) h2

/-- C3 (amended): per domain, predict with probability=True returns the
sigmoid of the logit in column 0 of the network output
(`model_result[:, 0]`, the class-index-0 column, not the class-index-1
column), and predict with probability=False returns the arg-max predicted
class. -/
theorem predict_probability_column0 (g : List Nat → Nat → List ℚ)
    (model : List (List Nat) → List Nat → List (List ℚ))
    (hrow : ∀ input lens, model input lens = List.zipWith g input lens)
    (domains : List String) (σ : List Nat)
    (hσ : σ.Perm (List.range domains.length))
    (truncate pad : Nat)
    (hw : ∀ s ∈ domains, (truncateDomain truncate s).length ≤ pad) :
    (∀ out, predictProb model domains truncate pad σ = some out →
      ∀ j, j < domains.length →
        out.getD j 0
          = sigmoid ((perDomainLogits g truncate pad (domains.getD j (""))).headD 0))
    ∧ (∀ out, predictLabels model domains truncate pad σ = some out →
      ∀ j, j < domains.length →
        out.getD j 0 = argmaxIdx (perDomainLogits g truncate pad (domains.getD j ("")))) := by
  constructor
  · intro out hout j hj
    have hchar := predictWith_eq (fun r => sigmoid (r.headD 0)) g model hrow domains σ hσ
      truncate pad hw
    have h2 := Option.some.inj ((hout.symm.trans hchar))
    subst h2
    exact getD_map_lt _ domains _ ("") hj
  · intro out hout j hj
    have hchar := predictWith_eq argmaxIdx g model hrow domains σ hσ truncate pad hw
    have h2 := Option.some.inj ((hout.symm.trans hchar))
    subst h2
    exact getD_map_lt _ domains _ ("") hj

/-- Witness for the amended probability-column claim at a concrete domain. -/
theorem predict_probability_column0_w :
    ((["ab"] : List String).map fun s =>
        sigmoid ((perDomainLogits gW 100 100 s).headD 0)).getD 0 0
      = sigmoid ((perDomainLogits gW 100 100 ((["ab"] : List String).getD 0 (""))).headD 0) :=
  (predict_probability_column0 gW mW (fun _ _ => rfl) (["ab"]) [0] (by decide) 100 100
    (by decide)).1 _ rfl 0 (by decide)

/-- C7: every probability returned by predict lies in `[0, 1]`, and — for a
network whose output rows all have the width `output_size` fixed at model
initialization — every discrete label returned by predict is a class index
strictly below `output_size`. -/
theorem predict_output_ranges
    (fwd : RNNClassifier → List (List Nat) → List Nat → List (List ℚ))
    (m : RNNClassifier)
    (hshape : ∀ input lens r, r ∈ fwd m input lens → r.length = m.output_size)
    (hpos : 0 < m.output_size)
    (domains : List String) (truncate pad : Nat) (σ : List Nat) :
    (∀ out, predictProb (fwd m) domains truncate pad σ = some out →
      ∀ p ∈ out, 0 ≤ p ∧ p ≤ 1)
    ∧ (∀ out, predictLabels (fwd m) domains truncate pad σ = some out →
      ∀ k ∈ out, k < m.output_size) := by
  constructor
  · intro out hout p hp
    obtain ⟨input, lens, r, _, rfl⟩ := predictWith_mem hout p hp
    exact ⟨sigmoid_nonneg _, sigmoid_le_one _⟩
  · intro out hout k hk
    obtain ⟨input, lens, r, hr, rfl⟩ := predictWith_mem hout k hk
    have hlen : r.length = m.output_size := hshape input lens r hr
    have hne : r ≠ [] := by
      intro hnil
      rw [hnil] at hlen
      simp at hlen
      omega
    have := argmaxIdx_lt r hne
    omega

/-- Network family for the range witness: every row has `output_size` zero
logits. -/
def fwdW : RNNClassifier → List (List Nat) → List Nat → List (List ℚ) :=
  fun m input _ => input.map fun _ => List.replicate m.output_size 0

/-- The default-architecture network of `init_model` for the range witness:
`char_vocab = 128`, `hidden_size = 100`, `n_domain_type = 2`, `n_layers = 3`. -/
def mRnnW : RNNClassifier :=
  { input_size := 128, hidden_size := 100, output_size := 2, n_layers := 3,
    state_dict := [] }

/-- Witness for the output-range claim at a concrete domain and network. -/
theorem predict_output_ranges_w :
    (0 ≤ sigmoid 0 ∧ sigmoid 0 ≤ 1) ∧ (0 < mRnnW.output_size) := by
  have h := predict_output_ranges fwdW mRnnW ?hs (by decide) (["ab"]) 100 100 [0]
  case hs =>
    intro input lens r hr
    rcases List.mem_map.1 hr with ⟨x, _, rfl⟩
    exact List.length_replicate _ _
  exact ⟨h.1 [sigmoid 0] rfl (sigmoid 0) (List.mem_singleton.2 rfl),
    h.2 [0] rfl 0 (by decide)⟩

/-- C8: whenever `_create_variables` succeeds on a frame whose `len` column
is bounded by the code-column width (which holds for every frame `predict`
builds, last conjunct), every true sequence length in the length tensor is
at most `pad_max_len`, every row of the index tensor has exactly width
`pad_max_len`, and all entries beyond a row's vectorized width are zero. -/
theorem padded_batch_invariant :
    (∀ (df : List (List Nat × Nat)) (pad : Nat) (input : List (List Nat))
        (lens : List Nat),
        (∀ r ∈ df, r.2 ≤ r.1.length) →
        createVariables df pad = some (input, lens) →
          (∀ l ∈ lens, l ≤ pad)
          ∧ (∀ row ∈ input, row.length = pad)
          ∧ (∀ p ∈ input.zip df, ∀ j, p.2.1.length ≤ j → j < pad → p.1.getD j 1 = 0))
    ∧ (∀ (domains : List String) (truncate : Nat) (σ : List Nat),
        ∀ r ∈ str2ascii (domains.map (truncateDomain truncate)) σ,
          r.len ≤ r.codes.length) := by
  constructor
  · intro df pad input lens hwf hcv
    rw [createVariables] at hcv
    by_cases hcond : ((df.all fun r => decide (r.1.length ≤ pad)) = true)
    · rw [if_pos hcond] at hcv
      have hall : ∀ r ∈ df, r.1.length ≤ pad := by
        simpa [List.all_eq_true] using hcond
      obtain ⟨hin, hlens⟩ := Prod.mk.inj (Option.some.inj hcv)
      refine ⟨?_, ?_, ?_⟩
      · intro l hl
        rw [← hlens] at hl
        rcases List.mem_map.1 hl with ⟨r, hr, rfl⟩
        exact le_trans (hwf r hr) (hall r hr)
      · intro row hrow
        rw [← hin] at hrow
        rcases List.mem_map.1 hrow with ⟨r, hr, rfl⟩
        unfold padTo
        rw [List.length_append, List.length_replicate]
        have := hall r hr
        omega
      · intro p hp j hj hjpad
        rw [← hin, map_zip_same] at hp
        rcases List.mem_map.1 hp with ⟨r, hr, rfl⟩
        have hj' : r.1.length ≤ j := hj
        show (padTo pad r.1).getD j 1 = 0
        unfold padTo
        rw [getD_append_right _ _ _ hj']
        exact getD_replicate _ _ (by omega)
    · rw [if_neg hcond] at hcv
      exact absurd hcv (by simp)
  · intro domains truncate σ r hr
    rcases List.mem_map.1 hr with ⟨i, _, rfl⟩
    show (((domains.map (truncateDomain truncate)).getD i ("")).length : Nat)
      ≤ (charCodes ((domains.map (truncateDomain truncate)).getD i ("")) ++
          List.replicate (maxLen (domains.map (truncateDomain truncate)) -
            ((domains.map (truncateDomain truncate)).getD i ("")).length) 0).length
    rw [List.length_append, List.length_replicate, charCodes_length]
    omega

/-- Witness for the padding invariant on a concrete frame: one row with
codes `[5]` and length 1, padded to width 3. -/
theorem padded_batch_invariant_w :
    ([(5 : Nat), 0, 0] : List Nat).length = 3 ∧ ([(5 : Nat), 0, 0].getD 1 1 = 0) := by
  have h := padded_batch_invariant.1 [([5], 1)] 3 [[5, 0, 0]] [1] (by decide) (by decide)
  exact ⟨h.2.1 [5, 0, 0] (by decide), h.2.2 ([5, 0, 0], ([5], 1)) (by decide) 1
    (by decide) (by decide)⟩

end DGA
